import Mathlib

/-!
Verification of the StenoWAV spectral-embedding proof of concept (src/POC.py)
against its natural-language specification.

The Python source is shallowly embedded: byte strings become `List ℕ`
(each element below 256), IEEE-754 binary32 bit patterns become `ℕ` with
explicit field arithmetic, float values become exact rationals `ℚ`, complex
spectral bins become pairs `ℚ × ℚ` (real part, imaginary part), and the
process-wide `random` draws become explicit parameters (one value per draw
site and iteration).  The numpy FFT pair and the Hann window are external
collaborators of the core (spec section 6); the overlap-add engine is
therefore parameterised over the window coefficients and over the composite
per-frame transform, which the engine only ever applies to whole frames.
-/

namespace StenoWAV

/-- FFT_SIZE constant of the source. -/
def FFT_SIZE : ℕ := 1024

/-- HOP_SIZE = FFT_SIZE // 8. -/
def HOP_SIZE : ℕ := FFT_SIZE / 8

/-- ASCII bytes of the constant payload string embedded by `process_fft`
(the string is the 12 characters of the greeting used in the source). -/
def helloPayload : List ℕ := [72, 101, 108, 108, 111, 32, 87, 111, 114, 108, 100, 33]

/-- Chunking loop of `compress`: the byte string is consumed two bytes at a
time; an odd-length input has its final chunk padded with a null byte in the
second slot, which is what `string[i:i+2].ljust(2, ...)` does (ljust pads on
the right). -/
def chunk2 : List ℕ → List (ℕ × ℕ)
  | [] => []
  | [a] => [(a, 0)]
  | a :: b :: rest => (a, b) :: chunk2 rest

/-- Mantissa assembly of `compress`: `(random_7bits << 16) | char_16bits`
where `char_16bits = (ord(chars[0]) << 8) | ord(chars[1])`. -/
def mantissa (r7 c0 c1 : ℕ) : ℕ := (r7 <<< 16) ||| ((c0 <<< 8) ||| c1)

/-- Bit assembly of one synthesized float in `compress`:
`(sign << 31) | (exponent << 23) | mantissa` with sign fixed to 0. -/
def float_bits (e r7 c0 c1 : ℕ) : ℕ := (0 <<< 31) ||| ((e <<< 23) ||| mantissa r7 c0 c1)

/-- Value of an IEEE-754 binary32 bit pattern as an exact rational, i.e. what
`struct.unpack` returns for a finite pattern (exponent field below 255; the
patterns built by `compress` always have exponent field in [80, 125], hence
are positive normal floats). -/
def decodeBits (bits : ℕ) : ℚ :=
  let s : ℕ := bits / 2 ^ 31
  let e : ℕ := bits / 2 ^ 23 % 2 ^ 8
  let m : ℕ := bits % 2 ^ 23
  let sign : ℚ := if s % 2 = 1 then -1 else 1
  if e = 0 then sign * (m : ℚ) / 2 ^ 149
  else sign * ((2 : ℚ) ^ 23 + (m : ℚ)) * 2 ^ e / 2 ^ 150

/-- Bit patterns produced by `compress` chunk by chunk; `exps j` and
`rand7s j` model the draws `rd.randint(80, 125)` and `rd.randint(0, 0x7F)`
made while processing chunk `j`. -/
def compressBitsAux (exps rand7s : ℕ → ℕ) : ℕ → List (ℕ × ℕ) → List ℕ
  | _, [] => []
  | j, c :: cs =>
    float_bits (exps j) (rand7s j) c.1 c.2 :: compressBitsAux exps rand7s (j + 1) cs

/-- Bit patterns of the float list returned by `compress` on a byte string. -/
def compressBits (payload : List ℕ) (exps rand7s : ℕ → ℕ) : List ℕ :=
  compressBitsAux exps rand7s 0 (chunk2 payload)

/-- The float list returned by `compress`, as exact rationals. -/
def compressVals (payload : List ℕ) (exps rand7s : ℕ → ℕ) : List ℚ :=
  (compressBits payload exps rand7s).map decodeBits

/-- The byte string as carried by the floats: the input padded with a null
byte to even length. -/
def padEven (l : List ℕ) : List ℕ := if l.length % 2 = 1 then l ++ [0] else l

/-- Reading the low 16 bits of a produced bit pattern back as two bytes:
high 8 bits first, low 8 bits second. -/
def carrierBytes (bits : ℕ) : List ℕ := [bits % 2 ^ 16 / 2 ^ 8, bits % 2 ^ 8]

/-- Python `int()` on a rational: truncation toward zero. -/
def pyInt (q : ℚ) : ℤ := if q < 0 then ⌈q⌉ else ⌊q⌋

/-- Resolution of a (possibly negative) Python sequence index against length
`n`: a negative index counts from the end of the sequence. -/
def pyIdx (n : ℕ) (i : ℤ) : ℕ := (if i < 0 then i + n else i).toNat

/-- The statement `fft_data[i] += v` on a complex frame: numpy adds the real
scalar `v` to the real component of the addressed bin, with Python
negative-index wrapping.  An index outside `[-n, n)` raises IndexError in
Python; here `List.set` leaves the list unchanged in that case, and every
theorem below only relies on in-range accesses. -/
def addAt (l : List (ℚ × ℚ)) (i : ℤ) (v : ℚ) : List (ℚ × ℚ) :=
  let j := pyIdx l.length i
  l.set j ((l.getD j (0, 0)).1 + v, (l.getD j (0, 0)).2)

/-- The usable bin count `int(len(fft_data) // k_factor)` shared by the bin
selector of `process_fft` (as the inclusive upper bound of `rd.randint`) and
by the loop bound of `apply_randomness`.  Python floor-division of the
integer length by the float K-factor floors the quotient. -/
def usable_bin_count (L : ℕ) (k : ℚ) : ℕ := (⌊(L : ℚ) / k⌋).toNat

/-- The `apply_randomness` loop: every index below
`int(len(fft_data) // k_factor)` that is not among the pre-placed positions
receives a draw `noise index` (modeling `rd.uniform(-5, 5)`) added at
`fft_data[int(index * k_factor) - 1]`. -/
def apply_randomness (fft_data : List (ℚ × ℚ)) (k_factor : ℚ)
    (pre_places_positions : List ℕ) (noise : ℕ → ℚ) : List (ℚ × ℚ) :=
  (List.range (usable_bin_count fft_data.length k_factor)).foldl
    (fun acc index =>
      if index ∈ pre_places_positions then acc
      else addAt acc (pyInt ((index : ℚ) * k_factor) - 1) (noise index))
    fft_data

/-- Recursion of the `apply_data` loop, carrying the running value of
`index` from `enumerate(positions)`. -/
def apply_data_aux (k_factor : ℚ) (floats : List ℚ) :
    ℕ → List ℕ → List (ℚ × ℚ) → List (ℚ × ℚ)
  | _, [], fft_data => fft_data
  | index, pos :: rest, fft_data =>
    apply_data_aux k_factor floats (index + 1) rest
      (if index < floats.length then
        addAt fft_data (pyInt ((pos : ℚ) * k_factor)) (floats.getD index 0)
      else fft_data)

/-- The `apply_data` loop: for each `(index, pos)` in `enumerate(positions)`,
if `index < len(floats)` then `fft_data[int(pos * k_factor)] += floats[index]`. -/
def apply_data (fft_data : List (ℚ × ℚ)) (k_factor : ℚ) (floats : List ℚ)
    (positions : List ℕ) : List (ℚ × ℚ) :=
  apply_data_aux k_factor floats 0 positions fft_data

/-- Accumulator recursion of the position-selection loop of `process_fft`:
each draw already present in the list is discarded, otherwise appended. -/
def gen_positions_go (positions : List ℕ) : List ℕ → List ℕ
  | [] => positions
  | d :: ds => gen_positions_go (if d ∈ positions then positions else positions ++ [d]) ds

/-- The position-selection loop of `process_fft`: one
`rd.randint(0, int(len(fft_data) // k_factor))` draw per synthesized float
(the draws are the input list); a draw that collides with an earlier one is
discarded, not retried. -/
def gen_positions (draws : List ℕ) : List ℕ := gen_positions_go [] draws

/-- Per-frame embedding `process_fft`: synthesize the floats from the
constant payload, draw one candidate position per float, then run the
randomization phase followed by the data phase.  `posDraw i` models the
i-th `rd.randint(0, int(len(fft_data) // k_factor))` draw. -/
def process_fft (fft_data : List (ℚ × ℚ)) (k_factor : ℚ)
    (exps rand7s posDraw : ℕ → ℕ) (noise : ℕ → ℚ) : List (ℚ × ℚ) :=
  let data_compress := compressVals helloPayload exps rand7s
  let positions := gen_positions ((List.range data_compress.length).map posDraw)
  apply_data (apply_randomness fft_data k_factor positions noise)
    k_factor data_compress positions

/-- Elementwise slice accumulation `buf[start : start + len(seg)] += seg`. -/
def addSlice (buf : List ℚ) (start : ℕ) (seg : List ℚ) : List ℚ :=
  List.zipWith
    (fun i x => if start ≤ i ∧ i < start + seg.length then x + seg.getD (i - start) 0 else x)
    (List.range buf.length) buf

/-- Start offsets `range(0, len(audio) - fft_size, hop_size)` of the frame
loop; the truncated natural subtraction matches the empty Python range
whenever the signal is not longer than one frame. -/
def frameStarts (audioLen fft_size hop_size : ℕ) : List ℕ :=
  (List.range ((audioLen - fft_size + hop_size - 1) / hop_size)).map (fun j => j * hop_size)

/-- One iteration of the overlap-add frame loop.  `window n` is the n-th
Hann coefficient `np.hanning(fft_size)[n]` and `procFrame` is the composite
`np.fft.irfft` of `process_fft` of `np.fft.rfft` applied to the windowed
segment; both numpy facilities are external collaborators of the core
(spec section 6) and are kept abstract. -/
def olaStep (audio : List ℚ) (fft_size : ℕ) (window : ℕ → ℚ)
    (procFrame : List ℚ → List ℚ) (acc : List ℚ × List ℚ) (start : ℕ) :
    List ℚ × List ℚ :=
  let segment := (List.range fft_size).map (fun n => audio.getD (start + n) 0 * window n)
  let processed := procFrame segment
  (addSlice acc.1 start (List.zipWith (fun p n => p * window n) processed (List.range fft_size)),
   addSlice acc.2 start ((List.range fft_size).map (fun n => window n ^ 2)))

/-- The overlap-add engine `overlap_add_process`: zero accumulators of
length `len(audio) + fft_size`, the frame loop, the `1e-8` normalization
floor, elementwise division, and truncation to the input length. -/
def overlap_add_process (audio : List ℚ) (fft_size hop_size : ℕ) (window : ℕ → ℚ)
    (procFrame : List ℚ → List ℚ) : List ℚ :=
  let init : List ℚ × List ℚ :=
    (List.replicate (audio.length + fft_size) 0, List.replicate (audio.length + fft_size) 0)
  let acc := (frameStarts audio.length fft_size hop_size).foldl
    (olaStep audio fft_size window procFrame) init
  let norm := acc.2.map (fun x => max x ((1 : ℚ) / 10 ^ 8))
  (List.zipWith (fun o n => o / n) acc.1 norm).take audio.length

/-! ### Bit-level lemmas about the float synthesizer -/

/-- Bitwise or of a shifted field with a value that fits below the shift is
plain addition. -/
theorem shiftLeft_lor_eq (a b n : ℕ) (hb : b < 2 ^ n) : (a <<< n) ||| b = a * 2 ^ n + b := by
  rw [Nat.shiftLeft_eq, Nat.mul_comm a, ← Nat.mul_add_lt_is_or hb a]

/-- Arithmetic form of the 23-bit mantissa assembled by `compress`. -/
theorem mantissa_eq (r7 c0 c1 : ℕ) (h0 : c0 < 256) (h1 : c1 < 256) :
    mantissa r7 c0 c1 = r7 * 2 ^ 16 + (c0 * 2 ^ 8 + c1) := by
  unfold mantissa
  rw [shiftLeft_lor_eq c0 c1 8 (by omega), shiftLeft_lor_eq r7 _ 16 (by omega)]

/-- Arithmetic form of the 32-bit pattern assembled by `compress`. -/
theorem float_bits_eq (e r7 c0 c1 : ℕ) (hr : r7 < 128) (h0 : c0 < 256) (h1 : c1 < 256) :
    float_bits e r7 c0 c1 = e * 2 ^ 23 + (r7 * 2 ^ 16 + (c0 * 2 ^ 8 + c1)) := by
  unfold float_bits
  rw [mantissa_eq r7 c0 c1 h0 h1, Nat.zero_shiftLeft, Nat.zero_or,
    shiftLeft_lor_eq e _ 23 (by omega)]

/-- The two payload bytes of a chunk survive in the low 16 bits of the
assembled pattern, high byte first. -/
theorem carrierBytes_float_bits (e r7 c0 c1 : ℕ) (hr : r7 < 128) (h0 : c0 < 256)
    (h1 : c1 < 256) : carrierBytes (float_bits e r7 c0 c1) = [c0, c1] := by
  rw [carrierBytes, float_bits_eq e r7 c0 c1 hr h0 h1]
  have hx : (e * 2 ^ 23 + (r7 * 2 ^ 16 + (c0 * 2 ^ 8 + c1))) % 2 ^ 16 / 2 ^ 8 = c0 := by omega
  have hy : (e * 2 ^ 23 + (r7 * 2 ^ 16 + (c0 * 2 ^ 8 + c1))) % 2 ^ 8 = c1 := by omega
  rw [hx, hy]

/-- Exact rational value decoded from a pattern assembled by `compress` with
a normal (nonzero, finite) exponent field. -/
theorem decodeBits_float_bits (e r7 c0 c1 : ℕ) (he1 : 1 ≤ e) (he2 : e ≤ 254)
    (hr : r7 < 128) (h0 : c0 < 256) (h1 : c1 < 256) :
    decodeBits (float_bits e r7 c0 c1) =
      ((2 : ℚ) ^ 23 + ((r7 * 2 ^ 16 + (c0 * 2 ^ 8 + c1) : ℕ) : ℚ)) * 2 ^ e / 2 ^ 150 := by
  have hb := float_bits_eq e r7 c0 c1 hr h0 h1
  have hs : (e * 2 ^ 23 + (r7 * 2 ^ 16 + (c0 * 2 ^ 8 + c1))) / 2 ^ 31 = 0 := by omega
  have hef : (e * 2 ^ 23 + (r7 * 2 ^ 16 + (c0 * 2 ^ 8 + c1))) / 2 ^ 23 % 2 ^ 8 = e := by
    omega
  have hm : (e * 2 ^ 23 + (r7 * 2 ^ 16 + (c0 * 2 ^ 8 + c1))) % 2 ^ 23 =
      r7 * 2 ^ 16 + (c0 * 2 ^ 8 + c1) := by omega
  simp only [decodeBits, hb, hs, hef, hm]
  rw [if_neg (by omega : ¬ e = 0), if_neg (by norm_num)]
  ring

/-! ### Chunking lemmas -/

/-- Null-padding to even length commutes with peeling one full chunk. -/
theorem padEven_cons2 (a b : ℕ) (l : List ℕ) : padEven (a :: b :: l) = a :: b :: padEven l := by
  have h : (l.length + 1 + 1) % 2 = l.length % 2 := by omega
  by_cases hp : l.length % 2 = 1 <;> simp [padEven, h, hp]

/-- Flattening the chunks back to bytes yields the null-padded input. -/
theorem chunk2_flatten : ∀ l : List ℕ, ((chunk2 l).map (fun c => [c.1, c.2])).flatten = padEven l
  | [] => by simp [chunk2, padEven]
  | [a] => by simp [chunk2, padEven]
  | a :: b :: rest => by
    rw [padEven_cons2]
    simpa [chunk2] using chunk2_flatten rest

/-- Every chunk of a byte string consists of bytes (the pad is a byte too). -/
theorem chunk2_mem_lt : ∀ l : List ℕ, (∀ x ∈ l, x < 256) →
    ∀ c ∈ chunk2 l, c.1 < 256 ∧ c.2 < 256
  | [], _, c, hc => by simp [chunk2] at hc
  | [a], h, c, hc => by
    simp [chunk2] at hc
    subst hc
    exact ⟨h a (by simp), by norm_num⟩
  | a :: b :: rest, h, c, hc => by
    rw [chunk2] at hc
    rcases List.mem_cons.1 hc with h1 | h2
    · subst h1
      exact ⟨h a (by simp), h b (by simp)⟩
    · exact chunk2_mem_lt rest (fun x hx => h x (by simp [hx])) c h2

/-- Last element of a cons with a nonempty tail. -/
theorem getLast?_cons_ne {α : Type} (a : α) (l : List α) (h : l ≠ []) :
    (a :: l).getLast? = l.getLast? := by
  obtain ⟨y, ys, rfl⟩ := List.exists_cons_of_ne_nil h
  simp

/-- The last chunk of an odd-length byte string is the last byte paired with
the null pad. -/
theorem chunk2_getLast_odd : ∀ l : List ℕ, l.length % 2 = 1 →
    (chunk2 l).getLast? = (l.getLast?).map (fun b => (b, 0))
  | [], h => by simp at h
  | [a], _ => by simp [chunk2]
  | a :: b :: rest, h => by
    have hr : rest.length % 2 = 1 := by simp at h; omega
    have hne : rest ≠ [] := by
      intro hc
      rw [hc] at hr
      simp at hr
    obtain ⟨x, hx⟩ := List.getLast?_isSome.2 hne |> Option.isSome_iff_exists.1
    have ih := chunk2_getLast_odd rest hr
    have hcne : chunk2 rest ≠ [] := by
      intro hc
      rw [hc] at ih
      rw [hx] at ih
      simp at ih
    rw [chunk2, getLast?_cons_ne _ _ hcne, ih, getLast?_cons_ne a _ (by simp),
      getLast?_cons_ne b _ hne]

/-! ### C1: round trip of byte carriage -/

/-- Carrier extraction over the chunk recursion, independent of the draw
index offset. -/
theorem compressBitsAux_carrier (exps rand7s : ℕ → ℕ) (hr7 : ∀ j, rand7s j ≤ 127) :
    ∀ (cs : List (ℕ × ℕ)) (j : ℕ), (∀ c ∈ cs, c.1 < 256 ∧ c.2 < 256) →
      ((compressBitsAux exps rand7s j cs).map carrierBytes).flatten =
        (cs.map (fun c => [c.1, c.2])).flatten
  | [], _, _ => by simp [compressBitsAux]
  | c :: cs, j, h => by
    have hc := h c (by simp)
    rw [compressBitsAux, List.map_cons, List.map_cons, List.flatten_cons, List.flatten_cons,
      carrierBytes_float_bits (exps j) (rand7s j) c.1 c.2
        (by have := hr7 j; omega) hc.1 hc.2,
      compressBitsAux_carrier exps rand7s hr7 cs (j + 1) (fun d hd => h d (by simp [hd]))]

/-- C1 (confirmed): splitting a byte string into 2-byte chunks (last chunk
null-padded when the length is odd), synthesizing one binary32 pattern per
chunk via `compress`, and reading back the low 16 bits of each pattern as
two bytes (high 8 bits first) reproduces the byte string exactly, modulo
the padding byte, for every draw of the exponent field in [80, 125] and of
the high-7 mantissa bits in [0, 127]. -/
theorem C1_byte_carriage_roundtrip (payload : List ℕ) (exps rand7s : ℕ → ℕ)
    (hbytes : ∀ b ∈ payload, b < 256)
    (_hexp : ∀ j, 80 ≤ exps j ∧ exps j ≤ 125)
    (hr7 : ∀ j, rand7s j ≤ 127) :
    ((compressBits payload exps rand7s).map carrierBytes).flatten = padEven payload := by
  rw [compressBits,
    compressBitsAux_carrier exps rand7s hr7 (chunk2 payload) 0
      (chunk2_mem_lt payload hbytes),
    chunk2_flatten]

/-- Witness for C1 at the concrete payload "Hi" with exponent draw 100 and
high-mantissa draw 5. -/
theorem C1_witness :
    ((compressBits [72, 105] (fun _ => 100) (fun _ => 5)).map carrierBytes).flatten = [72, 105] :=
  C1_byte_carriage_roundtrip [72, 105] (fun _ => 100) (fun _ => 5)
    (by intro b hb; fin_cases hb <;> norm_num)
    (by intro j; exact ⟨by norm_num, by norm_num⟩)
    (by intro j; norm_num)

/-! ### C3: magnitude bounds of the synthesized floats -/

/-- Every bit pattern produced by the chunk recursion is the assembly of
some chunk of the input with the draws of some index. -/
theorem compressBitsAux_mem (exps rand7s : ℕ → ℕ) :
    ∀ (cs : List (ℕ × ℕ)) (j : ℕ) (b : ℕ), b ∈ compressBitsAux exps rand7s j cs →
      ∃ i c, c ∈ cs ∧ b = float_bits (exps i) (rand7s i) c.1 c.2
  | [], _, b, hb => by simp [compressBitsAux] at hb
  | c :: cs, j, b, hb => by
    rw [compressBitsAux] at hb
    rcases List.mem_cons.1 hb with h | h
    · exact ⟨j, c, by simp, h⟩
    · obtain ⟨i, d, hd, hbd⟩ := compressBitsAux_mem exps rand7s cs (j + 1) b h
      exact ⟨i, d, by simp [hd], hbd⟩

/-- Magnitude bounds of one decoded pattern: at least 2^(80-127) (attained
when the mantissa is all zeros) and strictly below 2^(125-127+1). -/
theorem decode_bounds (e r7 c0 c1 : ℕ) (he1 : 80 ≤ e) (he2 : e ≤ 125) (hr : r7 < 128)
    (h0 : c0 < 256) (h1 : c1 < 256) :
    1 / 2 ^ 47 ≤ |decodeBits (float_bits e r7 c0 c1)| ∧
      |decodeBits (float_bits e r7 c0 c1)| < 1 / 2 := by
  rw [decodeBits_float_bits e r7 c0 c1 (by omega) (by omega) hr h0 h1]
  have hmlt : ((r7 * 2 ^ 16 + (c0 * 2 ^ 8 + c1) : ℕ) : ℚ) < 2 ^ 23 := by
    have h : r7 * 2 ^ 16 + (c0 * 2 ^ 8 + c1) < 2 ^ 23 := by omega
    exact_mod_cast h
  set mq : ℚ := ((r7 * 2 ^ 16 + (c0 * 2 ^ 8 + c1) : ℕ) : ℚ) with hmq
  have hm0 : 0 ≤ mq := by positivity
  have hpos : (0 : ℚ) < ((2 : ℚ) ^ 23 + mq) * 2 ^ e / 2 ^ 150 := by positivity
  rw [abs_of_pos hpos]
  constructor
  · have h80 : (2 : ℚ) ^ 80 ≤ 2 ^ e := pow_le_pow_right₀ (by norm_num) he1
    have hX : (2 : ℚ) ^ 103 ≤ ((2 : ℚ) ^ 23 + mq) * 2 ^ e := by
      calc (2 : ℚ) ^ 103 = 2 ^ 23 * 2 ^ 80 := by ring
        _ ≤ ((2 : ℚ) ^ 23 + mq) * 2 ^ e := by
            apply mul_le_mul (by linarith) h80 (by positivity) (by positivity)
    rw [div_le_div_iff₀ (by positivity) (by positivity)]
    calc (1 : ℚ) * 2 ^ 150 = 2 ^ 103 * 2 ^ 47 := by ring
      _ ≤ ((2 : ℚ) ^ 23 + mq) * 2 ^ e * 2 ^ 47 := by
          apply mul_le_mul_of_nonneg_right hX (by positivity)
  · have h125 : (2 : ℚ) ^ e ≤ 2 ^ 125 := pow_le_pow_right₀ (by norm_num) he2
    have hX : ((2 : ℚ) ^ 23 + mq) * 2 ^ e < 2 ^ 149 := by
      calc ((2 : ℚ) ^ 23 + mq) * 2 ^ e < 2 ^ 24 * 2 ^ e := by
            apply mul_lt_mul_of_pos_right (by nlinarith) (by positivity)
        _ ≤ 2 ^ 24 * 2 ^ 125 := by
            apply mul_le_mul_of_nonneg_left h125 (by positivity)
        _ = (2 : ℚ) ^ 149 := by ring
    rw [div_lt_div_iff₀ (by positivity) (by positivity)]
    calc ((2 : ℚ) ^ 23 + mq) * 2 ^ e * 2 < 2 ^ 149 * 2 := by linarith
      _ = 1 * 2 ^ 150 := by ring

/-- Counterexample to C3 as stated: on the payload chunk of two null bytes
with exponent draw 80 and high-mantissa draw 0, `compress` produces exactly
the value 2^(80-127) = 1/2^47, whose absolute value is not strictly greater
than the claimed lower bound 2^(80-127). -/
theorem C3_counterexample :
    compressVals [0, 0] (fun _ => 80) (fun _ => 0) = [1 / 2 ^ 47] ∧
      ¬ (1 / 2 ^ 47 < |(1 : ℚ) / 2 ^ 47|) := by
  constructor
  · have hb : float_bits 80 0 0 0 = 671088640 := by decide
    simp only [compressVals, compressBits, chunk2, compressBitsAux, List.map_cons,
      List.map_nil, hb]
    norm_num [decodeBits]
  · rw [abs_of_pos (by norm_num)]
    exact lt_irrefl _

/-- C3 as amended: every float produced by the float synthesizer has
absolute value at least 2^(80-127) — with equality attained when the chunk
bytes and the random high-mantissa bits are all zero — and strictly less
than 2^(125-127+1), for every payload byte string and all draws of the
exponent field in [80, 125] and high-7 mantissa bits in [0, 127]. -/
theorem C3_amended_magnitude (payload : List ℕ) (exps rand7s : ℕ → ℕ)
    (hbytes : ∀ b ∈ payload, b < 256)
    (hexp : ∀ j, 80 ≤ exps j ∧ exps j ≤ 125)
    (hr7 : ∀ j, rand7s j ≤ 127) :
    ∀ v ∈ compressVals payload exps rand7s, 1 / 2 ^ 47 ≤ |v| ∧ |v| < 1 / 2 := by
  intro v hv
  rw [compressVals, compressBits] at hv
  obtain ⟨bits, hbits, rfl⟩ := List.mem_map.1 hv
  obtain ⟨i, c, hc, rfl⟩ := compressBitsAux_mem exps rand7s (chunk2 payload) 0 bits hbits
  have hcb := chunk2_mem_lt payload hbytes c hc
  exact decode_bounds (exps i) (rand7s i) c.1 c.2 (hexp i).1 (hexp i).2
    (by have := hr7 i; omega) hcb.1 hcb.2

/-- Witness for the amended C3 at the payload "Hi" with exponent draw 100
and high-mantissa draw 5; the produced value is 8734825/2^50. -/
theorem C3_witness :
    1 / 2 ^ 47 ≤ |(8734825 : ℚ) / 2 ^ 50| ∧ |(8734825 : ℚ) / 2 ^ 50| < 1 / 2 := by
  have hb : float_bits 100 5 72 105 = 839207017 := by decide
  have hlist : compressVals [72, 105] (fun _ => 100) (fun _ => 5) =
      [(8734825 : ℚ) / 2 ^ 50] := by
    simp only [compressVals, compressBits, chunk2, compressBitsAux, List.map_cons,
      List.map_nil, hb]
    norm_num [decodeBits]
  exact C3_amended_magnitude [72, 105] (fun _ => 100) (fun _ => 5)
    (by intro b hb2; fin_cases hb2 <;> norm_num)
    (by intro j; exact ⟨by norm_num, by norm_num⟩)
    (by intro j; norm_num)
    ((8734825 : ℚ) / 2 ^ 50) (by rw [hlist]; exact List.mem_singleton.2 rfl)

/-! ### C4: placement of the padding byte -/

/-- Counterexample to C4 as stated: for the odd-length payload consisting of
the single byte 72, the carrier bytes of the produced float are [72, 0]
(final input byte in the high 8 bits, null pad in the low 8 bits), not
[0, 72] as the claim asserts. -/
theorem C4_counterexample :
    (compressBits [72] (fun _ => 80) (fun _ => 0)).map carrierBytes = [[72, 0]] ∧
      ([[72, 0]] : List (List ℕ)) ≠ [[0, 72]] := ⟨by decide, by decide⟩

/-- Low 16 carrier bits of the last pattern produced by the chunk recursion. -/
theorem compressBitsAux_getLast_mod (exps rand7s : ℕ → ℕ) (hr7 : ∀ j, rand7s j ≤ 127) :
    ∀ (cs : List (ℕ × ℕ)) (j : ℕ), (∀ c ∈ cs, c.1 < 256 ∧ c.2 < 256) →
      ((compressBitsAux exps rand7s j cs).getLast?).map (fun bits => bits % 2 ^ 16) =
        (cs.getLast?).map (fun c => c.1 * 2 ^ 8 + c.2)
  | [], _, _ => by simp [compressBitsAux]
  | [c], j, h => by
    have hc := h c (by simp)
    simp only [compressBitsAux, List.getLast?_singleton, Option.map_some']
    rw [float_bits_eq (exps j) (rand7s j) c.1 c.2 (by have := hr7 j; omega) hc.1 hc.2]
    congr 1
    omega
  | c :: c2 :: cs, j, h => by
    have ih := compressBitsAux_getLast_mod exps rand7s hr7 (c2 :: cs) (j + 1)
      (fun d hd => h d (by simp [hd]))
    rw [compressBitsAux,
      getLast?_cons_ne _ _ (by rw [compressBitsAux]; simp), ih,
      getLast?_cons_ne c (c2 :: cs) (by simp)]

/-- C4 as amended: when the input byte string has odd length, the final
chunk is zero-padded on the LOW byte: the final input byte occupies the
high 8 bits of the last float's 16 carrier bits and the null padding byte
occupies the low 8 bits. -/
theorem C4_amended_padding (payload : List ℕ) (exps rand7s : ℕ → ℕ)
    (hodd : payload.length % 2 = 1)
    (hbytes : ∀ b ∈ payload, b < 256)
    (hr7 : ∀ j, rand7s j ≤ 127) :
    ((compressBits payload exps rand7s).getLast?).map (fun bits => bits % 2 ^ 16) =
      (payload.getLast?).map (fun b => b * 2 ^ 8) := by
  rw [compressBits,
    compressBitsAux_getLast_mod exps rand7s hr7 (chunk2 payload) 0
      (chunk2_mem_lt payload hbytes),
    chunk2_getLast_odd payload hodd]
  cases payload.getLast? <;> simp

/-- Witness for the amended C4 at the single-byte payload [72]: the last
pattern's 16 carrier bits are 72 * 2^8 = 0x4800. -/
theorem C4_witness :
    ((compressBits [72] (fun _ => 80) (fun _ => 0)).getLast?).map (fun bits => bits % 2 ^ 16) =
      some (72 * 2 ^ 8) := by
  have h := C4_amended_padding [72] (fun _ => 80) (fun _ => 0) (by decide)
    (by intro b hb; fin_cases hb <;> norm_num) (by intro j; norm_num)
  simpa using h

/-! ### Lemmas on the position-selection loop (bin selector) -/

/-- The selection loop never produces more elements than accumulator plus
draws. -/
theorem gen_positions_go_length_le : ∀ (ds acc : List ℕ),
    (gen_positions_go acc ds).length ≤ acc.length + ds.length
  | [], acc => by simp [gen_positions_go]
  | d :: ds, acc => by
    rw [gen_positions_go]
    by_cases h : d ∈ acc
    · rw [if_pos h]
      have := gen_positions_go_length_le ds acc
      simp only [List.length_cons]
      omega
    · rw [if_neg h]
      have := gen_positions_go_length_le ds (acc ++ [d])
      simp only [List.length_append, List.length_cons, List.length_nil] at this ⊢
      omega

/-- The selection loop preserves freedom from duplicates. -/
theorem gen_positions_go_nodup : ∀ (ds acc : List ℕ), acc.Nodup →
    (gen_positions_go acc ds).Nodup
  | [], _, h => h
  | d :: ds, acc, h => by
    rw [gen_positions_go]
    by_cases hd : d ∈ acc
    · rw [if_pos hd]
      exact gen_positions_go_nodup ds acc h
    · rw [if_neg hd]
      exact gen_positions_go_nodup ds (acc ++ [d])
        (by simpa [List.nodup_append] using ⟨h, hd⟩)

/-- Every element of the selection loop's result is an accumulator element
or a draw. -/
theorem gen_positions_go_mem : ∀ (ds acc : List ℕ) (x : ℕ),
    x ∈ gen_positions_go acc ds → x ∈ acc ∨ x ∈ ds
  | [], _, _, hx => Or.inl hx
  | d :: ds, acc, x, hx => by
    rw [gen_positions_go] at hx
    by_cases hd : d ∈ acc
    · rw [if_pos hd] at hx
      rcases gen_positions_go_mem ds acc x hx with h | h
      · exact Or.inl h
      · exact Or.inr (by simp [h])
    · rw [if_neg hd] at hx
      rcases gen_positions_go_mem ds (acc ++ [d]) x hx with h | h
      · rcases List.mem_append.1 h with h' | h'
        · exact Or.inl h'
        · exact Or.inr (by simpa using Or.inl (List.mem_singleton.1 h'))
      · exact Or.inr (by simp [h])

/-- On duplicate-free draws disjoint from the accumulator, the selection
loop appends all draws. -/
theorem gen_positions_go_eq_append : ∀ (ds acc : List ℕ), ds.Nodup →
    (∀ d ∈ ds, d ∉ acc) → gen_positions_go acc ds = acc ++ ds
  | [], acc, _, _ => by simp [gen_positions_go]
  | d :: ds, acc, hnd, hdis => by
    have hd : d ∉ acc := hdis d (by simp)
    rw [gen_positions_go, if_neg hd,
      gen_positions_go_eq_append ds (acc ++ [d]) (List.Nodup.of_cons hnd)
        (by
          intro e he
          rw [List.mem_append]
          push_neg
          exact ⟨hdis e (by simp [he]), by
            simp only [List.mem_singleton]
            intro hc
            subst hc
            exact (List.nodup_cons.1 hnd).1 he⟩)]
    simp

/-- If the selection loop loses no draw, the draws were duplicate-free and
disjoint from the accumulator. -/
theorem gen_positions_go_length_eq : ∀ (ds acc : List ℕ),
    (gen_positions_go acc ds).length = acc.length + ds.length →
      ds.Nodup ∧ ∀ d ∈ ds, d ∉ acc
  | [], _, _ => ⟨List.nodup_nil, by simp⟩
  | d :: ds, acc, hlen => by
    rw [gen_positions_go] at hlen
    by_cases hd : d ∈ acc
    · rw [if_pos hd] at hlen
      have := gen_positions_go_length_le ds acc
      simp only [List.length_cons] at hlen
      omega
    · rw [if_neg hd] at hlen
      have hlen2 : (gen_positions_go (acc ++ [d]) ds).length =
          (acc ++ [d]).length + ds.length := by
        simp only [List.length_append, List.length_cons, List.length_nil] at hlen ⊢
        omega
      obtain ⟨hnd, hdis⟩ := gen_positions_go_length_eq ds (acc ++ [d]) hlen2
      refine ⟨List.nodup_cons.2 ⟨fun hc => ?_, hnd⟩, ?_⟩
      · have := hdis d hc
        simp at this
      · intro e he
        rcases List.mem_cons.1 he with rfl | he'
        · exact hd
        · intro hc
          exact hdis e he' (by simp [hc])

/-! ### C2: size of the position set -/

/-- Counterexample to C2 as stated: the payload floats number six, yet when
all six position draws collide on the value 0 (a possible outcome of
`rd.randint`), the selection loop keeps a single position: the Position
Set size is 1, not 6. -/
theorem C2_counterexample :
    (gen_positions (List.replicate 6 0)).length = 1 ∧
      (compressBits helloPayload (fun _ => 80) (fun _ => 0)).length = 6 ∧
      (1 : ℕ) ≠ 6 := ⟨by decide, by decide, by decide⟩

/-- C2 as amended: the Bin Selector performs one uniform draw per
synthesized float and discards (rather than retries) any draw that
collides with an earlier one, so the Position Set is duplicate-free, its
size is at most the number of Synthesized Float values, and the sizes are
equal exactly when no two draws collide. -/
theorem C2_amended_selector_size (draws : List ℕ) :
    (gen_positions draws).Nodup ∧ (gen_positions draws).length ≤ draws.length ∧
      ((gen_positions draws).length = draws.length ↔ draws.Nodup) := by
  refine ⟨gen_positions_go_nodup draws [] List.nodup_nil, ?_, ?_, ?_⟩
  · simpa using gen_positions_go_length_le draws []
  · intro h
    exact (gen_positions_go_length_eq draws [] (by simpa using h)).1
  · intro h
    rw [gen_positions, gen_positions_go_eq_append draws [] h (by simp)]
    simp

/-! ### C7: range and distinctness of the selected positions -/

/-- C7 (confirmed): when every draw respects the inclusive `rd.randint`
range [0, usable bin count], every bin index returned by the Bin Selector
lies in [0, usable bin count], and the returned Position Set contains no
duplicate indices. -/
theorem C7_selector_range (L : ℕ) (k : ℚ) (draws : List ℕ)
    (hdraws : ∀ d ∈ draws, d ≤ usable_bin_count L k) :
    (gen_positions draws).Nodup ∧
      ∀ p ∈ gen_positions draws, p ≤ usable_bin_count L k := by
  refine ⟨gen_positions_go_nodup draws [] List.nodup_nil, fun p hp => ?_⟩
  rcases gen_positions_go_mem draws [] p hp with h | h
  · simp at h
  · exact hdraws p h

/-- The usable bin count for K-factor 1 is the frame length. -/
theorem usable_bin_count_one (L : ℕ) : usable_bin_count L 1 = L := by
  simp [usable_bin_count]

/-- Witness for C7 with a frame of 4 bins, K-factor 1 and draws 0, 2, 1. -/
theorem C7_witness :
    (gen_positions [0, 2, 1]).Nodup ∧ 2 ≤ usable_bin_count 4 1 := by
  have h := C7_selector_range 4 1 [0, 2, 1]
    (by
      intro d hd
      rw [usable_bin_count_one]
      fin_cases hd <;> norm_num)
  exact ⟨h.1, h.2 2 (by decide)⟩

/-! ### Helper lemmas on in-place bin updates -/

/-- A left fold preserves any invariant preserved by each step. -/
theorem foldl_invariant {α β : Type} (P : α → Prop) (f : α → β → α) :
    ∀ (l : List β) (a : α), P a → (∀ acc x, x ∈ l → P acc → P (f acc x)) →
      P (l.foldl f a)
  | [], _, h0, _ => h0
  | x :: xs, a, h0, hstep => by
    rw [List.foldl_cons]
    exact foldl_invariant P f xs (f a x) (hstep a x (by simp) h0)
      (fun acc y hy hacc => hstep acc y (by simp [hy]) hacc)

/-- Reading an updated slot with `getD`. -/
theorem getD_set_eq {α : Type} (l : List α) (t : ℕ) (x d : α) (h : t < l.length) :
    (l.set t x).getD t d = x := by
  simp [List.getD_eq_getElem?_getD, List.getElem?_set_self h]

/-- Reading an untouched slot with `getD`. -/
theorem getD_set_ne {α : Type} (l : List α) (t j : ℕ) (x d : α) (h : j ≠ t) :
    (l.set t x).getD j d = l.getD j d := by
  simp [List.getD_eq_getElem?_getD, List.getElem?_set_ne (Ne.symm h)]

/-- An in-place bin addition never changes the frame length. -/
theorem addAt_length (l : List (ℚ × ℚ)) (i : ℤ) (v : ℚ) :
    (addAt l i v).length = l.length := by
  simp [addAt]

/-- Value of the addressed bin after an in-range in-place addition. -/
theorem addAt_getD_eq (l : List (ℚ × ℚ)) (i : ℤ) (v : ℚ)
    (h : pyIdx l.length i < l.length) :
    (addAt l i v).getD (pyIdx l.length i) (0, 0) =
      ((l.getD (pyIdx l.length i) (0, 0)).1 + v,
       (l.getD (pyIdx l.length i) (0, 0)).2) := by
  simp only [addAt]
  exact getD_set_eq _ _ _ _ h

/-- Bins other than the addressed one are untouched by an in-place addition. -/
theorem addAt_getD_ne (l : List (ℚ × ℚ)) (i : ℤ) (v : ℚ) (j : ℕ)
    (h : j ≠ pyIdx l.length i) :
    (addAt l i v).getD j (0, 0) = l.getD j (0, 0) := by
  simp only [addAt]
  exact getD_set_ne _ _ _ _ _ h

/-- In-place additions are real: the imaginary component of every bin is
untouched. -/
theorem addAt_getD_snd (l : List (ℚ × ℚ)) (i : ℤ) (v : ℚ) (j : ℕ) :
    ((addAt l i v).getD j (0, 0)).2 = (l.getD j (0, 0)).2 := by
  by_cases h : j = pyIdx l.length i
  · subst h
    by_cases hlt : pyIdx l.length i < l.length
    · rw [addAt_getD_eq l i v hlt]
    · simp only [addAt]
      rw [List.set_eq_of_length_le (by omega)]
  · rw [addAt_getD_ne l i v j h]

/-- Python truncation agrees with the floor on nonnegative arguments. -/
theorem pyInt_of_nonneg (q : ℚ) (h : 0 ≤ q) : pyInt q = ⌊q⌋ := by
  rw [pyInt, if_neg (not_lt.2 h)]

/-! ### C6: additions performed by the data phase -/

/-- The `apply_data` recursion performs exactly the additions prescribed by
zipping the positions with the remaining floats. -/
theorem apply_data_aux_eq_zip (k : ℚ) (hk : 0 ≤ k) :
    ∀ (positions : List ℕ) (floats : List ℚ) (idx : ℕ) (fft : List (ℚ × ℚ)),
      apply_data_aux k floats idx positions fft =
        (positions.zip (floats.drop idx)).foldl
          (fun acc pv => addAt acc ⌊(pv.1 : ℚ) * k⌋ pv.2) fft
  | [], floats, idx, fft => by simp [apply_data_aux]
  | pos :: rest, floats, idx, fft => by
    rw [apply_data_aux]
    by_cases h : idx < floats.length
    · rw [if_pos h, List.drop_eq_getElem_cons h, List.zip_cons_cons, List.foldl_cons,
        apply_data_aux_eq_zip k hk rest floats (idx + 1)]
      congr 2
      · exact pyInt_of_nonneg _ (mul_nonneg (Nat.cast_nonneg pos) hk)
      · rw [List.getD_eq_getElem?_getD, List.getElem?_eq_getElem h]
        rfl
    · rw [if_neg h, apply_data_aux_eq_zip k hk rest floats (idx + 1) fft,
        List.drop_eq_nil_of_le (by omega), List.drop_eq_nil_of_le (by omega)]
      simp

/-- C6 (confirmed): the data phase performs exactly
min(|Position Set|, |Synthesized Float Set|) bin additions: each position
of rank below the float count receives the float of its rank added at bin
index floor(position * K-factor), and positions of rank at or beyond the
float count are dropped from the phase (here: from the zip) untouched. -/
theorem C6_data_phase_touches (fft_data : List (ℚ × ℚ)) (k_factor : ℚ)
    (floats : List ℚ) (positions : List ℕ) (hk : 0 ≤ k_factor) :
    apply_data fft_data k_factor floats positions =
      (positions.zip floats).foldl
        (fun acc pv => addAt acc ⌊(pv.1 : ℚ) * k_factor⌋ pv.2) fft_data ∧
      (positions.zip floats).length = min positions.length floats.length := by
  constructor
  · rw [apply_data, apply_data_aux_eq_zip k_factor hk positions floats 0 fft_data,
      List.drop_zero]
  · exact List.length_zip positions floats

/-- Witness for C6 on a two-bin frame, K-factor 1, one float and two
positions: exactly one bin addition is performed. -/
theorem C6_witness :
    apply_data [((1 : ℚ), (2 : ℚ)), (3, 4)] 1 [10] [0, 1] =
        (([0, 1] : List ℕ).zip [(10 : ℚ)]).foldl
          (fun acc pv => addAt acc ⌊(pv.1 : ℚ) * 1⌋ pv.2) [((1 : ℚ), (2 : ℚ)), (3, 4)] ∧
      (([0, 1] : List ℕ).zip [(10 : ℚ)]).length =
        min ([0, 1] : List ℕ).length [(10 : ℚ)].length :=
  C6_data_phase_touches [((1 : ℚ), (2 : ℚ)), (3, 4)] 1 [10] [0, 1] (by norm_num)

/-! ### C8: embedding preserves the frame shape -/

/-- The randomization phase preserves the frame length and every bin's
imaginary component. -/
theorem apply_randomness_shape (fft_data : List (ℚ × ℚ)) (k_factor : ℚ)
    (pre : List ℕ) (noise : ℕ → ℚ) :
    (apply_randomness fft_data k_factor pre noise).length = fft_data.length ∧
      ∀ j : ℕ, ((apply_randomness fft_data k_factor pre noise).getD j (0, 0)).2 =
        (fft_data.getD j (0, 0)).2 := by
  rw [apply_randomness]
  apply foldl_invariant
    (fun acc : List (ℚ × ℚ) => acc.length = fft_data.length ∧
      ∀ j : ℕ, (acc.getD j (0, 0)).2 = (fft_data.getD j (0, 0)).2)
  · exact ⟨rfl, fun _ => rfl⟩
  · intro acc x _ hacc
    by_cases hmem : x ∈ pre
    · simpa [hmem] using hacc
    · rw [if_neg hmem]
      exact ⟨by rw [addAt_length]; exact hacc.1,
        fun j => by rw [addAt_getD_snd]; exact hacc.2 j⟩

/-- The data phase preserves the frame length and every bin's imaginary
component. -/
theorem apply_data_aux_shape (k : ℚ) (floats : List ℚ) :
    ∀ (positions : List ℕ) (idx : ℕ) (fft : List (ℚ × ℚ)),
      (apply_data_aux k floats idx positions fft).length = fft.length ∧
        ∀ j : ℕ, ((apply_data_aux k floats idx positions fft).getD j (0, 0)).2 =
          (fft.getD j (0, 0)).2
  | [], _, _ => ⟨rfl, fun _ => rfl⟩
  | pos :: rest, idx, fft => by
    rw [apply_data_aux]
    by_cases h : idx < floats.length
    · rw [if_pos h]
      obtain ⟨h1, h2⟩ := apply_data_aux_shape k floats rest (idx + 1)
        (addAt fft (pyInt ((pos : ℚ) * k)) (floats.getD idx 0))
      refine ⟨by rw [h1, addAt_length], fun j => ?_⟩
      rw [h2 j, addAt_getD_snd]
    · rw [if_neg h]
      exact apply_data_aux_shape k floats rest (idx + 1) fft

/-- C8 (confirmed): for every Spectral Frame, K-factor, Position Set and
float sequence, the per-frame embedding (randomization phase followed by
data phase, exactly as composed inside `process_fft`) returns a frame with
the same number of bins, and only changes bin values by adding real values
to complex bins: every bin's imaginary component is untouched. -/
theorem C8_embedding_preserves_shape (fft_data : List (ℚ × ℚ)) (k_factor : ℚ)
    (positions : List ℕ) (floats : List ℚ) (noise : ℕ → ℚ) :
    (apply_data (apply_randomness fft_data k_factor positions noise) k_factor
        floats positions).length = fft_data.length ∧
      ∀ j : ℕ,
        ((apply_data (apply_randomness fft_data k_factor positions noise) k_factor
            floats positions).getD j (0, 0)).2 = (fft_data.getD j (0, 0)).2 := by
  obtain ⟨hr1, hr2⟩ := apply_randomness_shape fft_data k_factor positions noise
  obtain ⟨hd1, hd2⟩ := apply_data_aux_shape k_factor floats positions 0
    (apply_randomness fft_data k_factor positions noise)
  exact ⟨by rw [apply_data, hd1, hr1], fun j => by rw [apply_data, hd2 j, hr2 j]⟩

/-! ### C10: wraparound of the randomization phase at index 0 -/

/-- C10 (confirmed): whenever index 0 is not among the selected positions,
the randomization phase computes target bin `int(0 * k_factor) - 1 = -1`,
which Python indexing resolves to the last bin; so the final
(highest-frequency) bin of the frame receives the uniform perturbation
drawn at loop index 0.  The hypotheses `1 ≤ k_factor` (K-factor is the
signal duration in seconds) and a nonzero usable bin count put every later
loop iteration at a bin index at most `length - 2`, so the stated value of
the last bin is exact. -/
theorem C10_wraparound_last_bin (fft_data : List (ℚ × ℚ)) (k_factor : ℚ)
    (positions : List ℕ) (noise : ℕ → ℚ)
    (h0 : 0 ∉ positions) (hk : 1 ≤ k_factor)
    (husable : 1 ≤ usable_bin_count fft_data.length k_factor) :
    (apply_randomness fft_data k_factor positions noise).getD
        (fft_data.length - 1) (0, 0) =
      ((fft_data.getD (fft_data.length - 1) (0, 0)).1 + noise 0,
       (fft_data.getD (fft_data.length - 1) (0, 0)).2) := by
  have hk0 : (0 : ℚ) < k_factor := lt_of_lt_of_le one_pos hk
  have hL1 : 1 ≤ fft_data.length := by
    by_contra hc
    have hL0 : fft_data.length = 0 := by omega
    rw [usable_bin_count, hL0] at husable
    norm_num at husable
  have hidx : pyIdx fft_data.length (-1) = fft_data.length - 1 := by
    rw [pyIdx, if_pos (by norm_num : (-1 : ℤ) < 0)]
    omega
  obtain ⟨u', hu'⟩ : ∃ u', usable_bin_count fft_data.length k_factor = u' + 1 :=
    ⟨usable_bin_count fft_data.length k_factor - 1, by omega⟩
  have hrange : List.range (usable_bin_count fft_data.length k_factor) =
      0 :: List.range' 1 u' := by
    rw [hu', List.range_eq_range', List.range'_succ]
  rw [apply_randomness, hrange]
  simp only [List.foldl_cons]
  rw [if_neg h0]
  have hstep0 : pyInt (((0 : ℕ) : ℚ) * k_factor) - 1 = (-1 : ℤ) := by
    rw [Nat.cast_zero, zero_mul, pyInt_of_nonneg 0 le_rfl, Int.floor_zero]
    norm_num
  rw [hstep0]
  have hbase2 : (addAt fft_data (-1) (noise 0)).getD (fft_data.length - 1) (0, 0) =
      ((fft_data.getD (fft_data.length - 1) (0, 0)).1 + noise 0,
       (fft_data.getD (fft_data.length - 1) (0, 0)).2) := by
    have h := addAt_getD_eq fft_data (-1) (noise 0) (by rw [hidx]; omega)
    rw [hidx] at h
    exact h
  have hinv := foldl_invariant
    (fun acc : List (ℚ × ℚ) => acc.length = fft_data.length ∧
      acc.getD (fft_data.length - 1) (0, 0) =
        ((fft_data.getD (fft_data.length - 1) (0, 0)).1 + noise 0,
         (fft_data.getD (fft_data.length - 1) (0, 0)).2))
    (fun acc index =>
      if index ∈ positions then acc
      else addAt acc (pyInt ((index : ℚ) * k_factor) - 1) (noise index))
    (List.range' 1 u') (addAt fft_data (-1) (noise 0))
    ⟨by rw [addAt_length], hbase2⟩ ?_
  · exact hinv.2
  · intro acc x hx hacc
    obtain ⟨i, hi, hxi⟩ := List.mem_range'.1 hx
    have hx1 : 1 ≤ x := by omega
    have hx2 : x < usable_bin_count fft_data.length k_factor := by omega
    by_cases hmem : x ∈ positions
    · simpa [hmem] using hacc
    · simp only [if_neg hmem]
      have hq0 : (0 : ℚ) ≤ (x : ℚ) * k_factor :=
        mul_nonneg (Nat.cast_nonneg x) (le_of_lt hk0)
      have hq1 : (1 : ℚ) ≤ (x : ℚ) * k_factor := by
        calc (1 : ℚ) = 1 * 1 := by ring
          _ ≤ (x : ℚ) * k_factor := by
              apply mul_le_mul (by exact_mod_cast hx1) hk (by norm_num)
                (Nat.cast_nonneg x)
      have hfl1 : 1 ≤ ⌊(x : ℚ) * k_factor⌋ := Int.le_floor.2 (by exact_mod_cast hq1)
      have hxz : (x : ℤ) + 1 ≤ ⌊(fft_data.length : ℚ) / k_factor⌋ := by
        rw [usable_bin_count] at hx2
        omega
      have hq2 : ((x : ℚ) + 1) ≤ (fft_data.length : ℚ) / k_factor := by
        have h := Int.le_floor.1 hxz
        push_cast at h
        exact h
      have hq3 : ((x : ℚ) + 1) * k_factor ≤ (fft_data.length : ℚ) :=
        (le_div_iff₀ hk0).1 hq2
      have hfl2 : ⌊(x : ℚ) * k_factor⌋ ≤ (fft_data.length : ℤ) - 1 := by
        have hle : (x : ℚ) * k_factor ≤ (((fft_data.length : ℤ) - 1 : ℤ) : ℚ) := by
          push_cast
          nlinarith
        calc ⌊(x : ℚ) * k_factor⌋ ≤ ⌊(((fft_data.length : ℤ) - 1 : ℤ) : ℚ)⌋ :=
              Int.floor_le_floor hle
          _ = (fft_data.length : ℤ) - 1 := Int.floor_intCast _
      have hne : fft_data.length - 1 ≠
          pyIdx acc.length (pyInt ((x : ℚ) * k_factor) - 1) := by
        rw [pyInt_of_nonneg _ hq0, pyIdx, hacc.1,
          if_neg (by omega : ¬ (⌊(x : ℚ) * k_factor⌋ - 1 < (0 : ℤ)))]
        omega
      refine ⟨by rw [addAt_length]; exact hacc.1, ?_⟩
      rw [addAt_getD_ne _ _ _ _ hne]
      exact hacc.2

/-- Witness for C10 on a single-bin frame with K-factor 1, no selected
positions and noise value 3: the last (only) bin gains the perturbation. -/
theorem C10_witness :
    (apply_randomness [((5 : ℚ), (7 : ℚ))] 1 [] (fun _ => 3)).getD 0 (0, 0) =
      ((5 : ℚ) + 3, 7) :=
  C10_wraparound_last_bin [((5 : ℚ), (7 : ℚ))] 1 [] (fun _ => 3)
    (by simp) (by norm_num) (by rw [usable_bin_count_one]; norm_num)

/-! ### C5 and C9: the overlap-add engine -/

/-- Slice accumulation never changes the buffer length. -/
theorem addSlice_length (buf : List ℚ) (start : ℕ) (seg : List ℚ) :
    (addSlice buf start seg).length = buf.length := by
  simp [addSlice]

/-- One frame iteration never changes the accumulator lengths. -/
theorem olaStep_length (audio : List ℚ) (fft_size : ℕ) (window : ℕ → ℚ)
    (procFrame : List ℚ → List ℚ) (acc : List ℚ × List ℚ) (start : ℕ) :
    (olaStep audio fft_size window procFrame acc start).1.length = acc.1.length ∧
      (olaStep audio fft_size window procFrame acc start).2.length = acc.2.length := by
  simp [olaStep, addSlice_length]

/-- C5 (confirmed): for every real-valued input signal of length at least
the frame size, the overlap-add engine's reconstructed output has exactly
the length of the input signal (for every window and per-frame transform;
the result in fact needs neither hypothesis). -/
theorem C5_reconstruction_length (audio : List ℚ) (fft_size hop_size : ℕ)
    (window : ℕ → ℚ) (procFrame : List ℚ → List ℚ)
    (_hlen : fft_size ≤ audio.length) (_hhop : 0 < hop_size) :
    (overlap_add_process audio fft_size hop_size window procFrame).length =
      audio.length := by
  simp only [overlap_add_process]
  have hacc := foldl_invariant
    (fun ac : List ℚ × List ℚ => ac.1.length = audio.length + fft_size ∧
      ac.2.length = audio.length + fft_size)
    (olaStep audio fft_size window procFrame)
    (frameStarts audio.length fft_size hop_size)
    (List.replicate (audio.length + fft_size) 0,
     List.replicate (audio.length + fft_size) 0)
    ⟨by simp, by simp⟩
    (fun ac s _ h => by
      obtain ⟨h1, h2⟩ := olaStep_length audio fft_size window procFrame ac s
      exact ⟨by rw [h1, h.1], by rw [h2, h.2]⟩)
  rw [List.length_take, List.length_zipWith, List.length_map, hacc.1, hacc.2]
  omega

/-- Witness for C5 on a constant signal of exactly one frame length. -/
theorem C5_witness :
    (overlap_add_process (List.replicate 1024 (0 : ℚ)) 1024 128 (fun _ => 0)
      (fun seg => seg)).length = 1024 := by
  have hlen : (List.replicate 1024 (0 : ℚ)).length = 1024 := List.length_replicate 1024 0
  have h := C5_reconstruction_length (List.replicate 1024 (0 : ℚ)) 1024 128
    (fun _ => 0) (fun seg => seg) (le_of_eq hlen.symm) (by norm_num)
  rw [hlen] at h
  exact h

/-- C9 (confirmed): on an input strictly shorter than one frame the frame
loop has no iterations (its start-offset list is empty) and the engine
returns the all-zero signal of the input's length: the zero accumulator
divided by the floored normalization buffer is zero everywhere. -/
theorem C9_short_signal (audio : List ℚ) (fft_size hop_size : ℕ)
    (window : ℕ → ℚ) (procFrame : List ℚ → List ℚ)
    (hshort : audio.length < fft_size) (hhop : 0 < hop_size) :
    overlap_add_process audio fft_size hop_size window procFrame =
        List.replicate audio.length 0 ∧
      frameStarts audio.length fft_size hop_size = [] := by
  have hstarts : frameStarts audio.length fft_size hop_size = [] := by
    rw [frameStarts]
    have h1 : audio.length - fft_size = 0 := by omega
    rw [h1]
    have h2 : (0 + hop_size - 1) / hop_size = 0 := Nat.div_eq_of_lt (by omega)
    rw [h2]
    simp
  refine ⟨?_, hstarts⟩
  simp only [overlap_add_process, hstarts, List.foldl_nil, List.map_replicate,
    List.zipWith_replicate', List.take_replicate]
  rw [zero_div]
  congr 1
  omega

/-- Witness for C9 on a three-sample signal with frame size 1024. -/
theorem C9_witness :
    overlap_add_process [(1 : ℚ), 2, 3] 1024 128 (fun _ => 1) (fun seg => seg) =
        List.replicate 3 0 ∧
      frameStarts 3 1024 128 = [] := by
  have h := C9_short_signal [(1 : ℚ), 2, 3] 1024 128 (fun _ => 1) (fun seg => seg)
    (by norm_num) (by norm_num)
  simpa using h

end StenoWAV
